import Mathlib

/-! # octave-tablicious: CSV reader and vectorised binary search

A shallow embedding of

* `inst/csv_reader.h`  (`csv_reader::csv_datatype`: `its_float`, `decide_value`,
  `get_individual`, `read_record`),
* `inst/csv_matrix.cc` (the `csv_matrix` binding: column type loop and column
  materialisation loop),
* `src/__oct_time_binsearch__.cc` (`binsearch` and the `__oct_time_binsearch__`
  entry point),

followed by theorems about them.

Modelling conventions.

* A `std::string` is a `List Char`.  The code only compares single characters
  with `'.'`, `'0'`, `'9'`, `','` and `'"'`, so nothing depends on the width of
  a character.
* The elementary type label stays what it is in the source: one of the strings
  `"std::float"` and `"std::string"`.
* A file is the list of its physical lines (what successive `getline` calls
  return); a file that cannot be opened is `none`.
* Reading `v[i]` outside a `std::vector` is undefined behaviour in C++; the
  embedding makes it explicit as `none`.
* The definitions `write_line`, `strip_from`, `reference_split` and `full_scan_type`
  are not code: they restate the specification, for comparison with the code.
* `octave_idx_type` values in `binsearch` are modelled as `Int`.  Every value
  the loop computes lies between `-(len + 1)` and `2 * len`, so 64-bit
  arithmetic does not wrap for any array that fits in memory.
-/

namespace csv_reader

/-! ## `csv_reader.h` -/

/-- The loop of `its_float`: `dots` is the counter, the list is what is left of `value`. -/
def its_float_loop : List Char → Nat → Bool
  | [], _ => true
  | i :: rest, dots =>
    if i ≠ '.' ∧ (i < '0' ∨ i > '9') then false
    else
      let dots1 := if i = '.' then dots + 1 else dots
      if dots1 > 1 then false else its_float_loop rest dots1

/-- The characters `its_float` accepts: an ASCII digit or the dot. -/
def digit_or_dot (c : Char) : Prop := ('0' ≤ c ∧ c ≤ '9') ∨ c = '.'

/-- `bool its_float(std::string value)`. -/
def its_float (value : List Char) : Bool := its_float_loop value 0

/-- `std::string decide_value(std::string value)`. -/
def decide_value (value : List Char) : String :=
  if its_float value then "std::float" else "std::string"

/-- The local variables of `get_individual` that the scanning loop updates. -/
structure SplitState where
  /-- `int block`: 1 inside a quoted region, 0 outside. -/
  block : Nat
  /-- `std::string temp`: the pending field. -/
  temp : List Char
  /-- `std::vector<std::string> devide`: the fields emitted so far. -/
  devide : List (List Char)
deriving DecidableEq, Repr

/-- One iteration of the `for (auto i : line)` loop of `get_individual`. -/
def split_step (s : SplitState) (i : Char) : SplitState :=
  if s.block = 1 then
    if i = '"' then { s with block := 0 }
    else { s with temp := s.temp ++ [i] }
  else
    if i = ',' then { s with devide := s.devide ++ [s.temp], temp := [] }
    else if i = '"' then { s with block := 1 }
    else { s with temp := s.temp ++ [i] }

/-- The whole scanning loop of `get_individual`, started in a given state. -/
def scan_from (s : SplitState) (line : List Char) : SplitState :=
  line.foldl split_step s

/-- The scanning loop of `get_individual` from its initial state
(`block = 0`, `temp` and `devide` empty). -/
def scan (line : List Char) : SplitState :=
  scan_from ⟨0, [], []⟩ line

/-- The contents of `devide` after the `if (temp != "")` that follows the loop. -/
def finish (s : SplitState) : List (List Char) :=
  if s.temp ≠ [] then s.devide ++ [s.temp] else s.devide

/-- A cell: `std::pair<std::string, std::string>`, the value and its type label. -/
abbrev Cell := List Char × String

/-- `get_individual(std::string line)`. -/
def get_individual (line : List Char) : List Cell :=
  (finish (scan line)).map (fun i => (i, decide_value i))

/-- The field values of a split line (the `first` components). -/
def split (line : List Char) : List (List Char) :=
  (get_individual line).map Prod.fst

/-- How a field is written into a line: bare, or wrapped in a pair of double quotes. -/
def write_field (f : List Char) (quoted : Bool) : List Char :=
  if quoted then ['"'] ++ f ++ ['"'] else f

/-- A line written from fields (each with its choice of quoting), the pieces joined
with commas. -/
def write_line : List (List Char × Bool) → List Char
  | [] => []
  | [p] => write_field p.1 p.2
  | p :: q :: rest => write_field p.1 p.2 ++ [','] ++ write_line (q :: rest)

/-- The content of a line, written from the words of the specification: every double
quote is removed (it toggles the quoted state) and so is every comma outside a quoted
region; every other character is kept. -/
def strip_from : Bool → List Char → List Char
  | _, [] => []
  | quoted, c :: rest =>
    if c = '"' then strip_from (!quoted) rest
    else if c = ',' ∧ quoted = false then strip_from quoted rest
    else c :: strip_from quoted rest

/-- The reference split of a line: the ordinary split on `,` with the last piece removed
when it is the empty string. -/
def reference_split (line : List Char) : List (List Char) :=
  let pieces := line.splitOn ','
  if pieces.getLast? = some [] then pieces.dropLast else pieces

/-- The two public members of `class csv_datatype`. -/
structure csv_datatype where
  header_csv : List (List Char)
  data : List (List Cell)
deriving DecidableEq, Repr

/-- A freshly constructed `csv_datatype`: both vectors empty. -/
def csv_datatype.fresh : csv_datatype := ⟨[], []⟩

/-- The stream `fin` after `fin.open(location, std::ios::in)`: the lines still to be
read.  When the file cannot be opened the stream is in a failed state and every
`getline` on it fails, exactly as on an exhausted stream. -/
def open_stream (file : Option (List (List Char))) : List (List Char) :=
  match file with
  | none => []
  | some lines => lines

/-- `getline(fin, line)`: on success the next line replaces `line`; on failure
`line` is left as it was.  Returns the success flag, `line` and the stream. -/
def getline (fin : List (List Char)) (line : List Char) :
    Bool × List Char × List (List Char) :=
  match fin with
  | [] => (false, line, [])
  | l :: rest => (true, l, rest)

/-- The loop `while (getline(fin, line)) data.push_back(get_individual(line));`. -/
def read_rows : List (List Char) → List (List Cell) → List (List Cell)
  | [], data => data
  | l :: rest, data => read_rows rest (data ++ [get_individual l])

/-- `void read_record(std::string location, std::string header_required)`, acting on
the object `table`; `file` is what `location` holds. -/
def read_record (table : csv_datatype) (file : Option (List (List Char)))
    (header_required : List Char) : csv_datatype :=
  let fin := open_stream file
  if header_required = ['1'] then
    let r := getline fin []
    let temps := get_individual r.2.1
    let table1 : csv_datatype :=
      { table with header_csv := table.header_csv ++ temps.map Prod.fst }
    { table1 with data := read_rows r.2.2 table1.data }
  else
    { table with data := read_rows fin table.data }

/-! ## `csv_matrix.cc` -/

/-- `table.data[i][j]`; `none` when `i` or `j` is out of range. -/
def cell_at (data : List (List Cell)) (i j : Nat) : Option Cell :=
  match data[i]? with
  | none => none
  | some row => row[j]?

/-- The inner loop `for (i = 0; i < number_rows; i++) if (table.data[i][j].second ==
"std::string") {is_str = 1; break;}`: `n` iterations are left, `i` is the current
row.  Returns the final `is_str`. -/
def column_has_string (data : List (List Cell)) (j : Nat) : Nat → Nat → Option Bool
  | 0, _ => some false
  | n + 1, i =>
    match cell_at data i j with
    | none => none
    | some c =>
      if c.2 = "std::string" then some true
      else column_has_string data j n (i + 1)

/-- The body of the first `for j` loop: returns what it stores in `data_type(j)` and
what it pushes on `data_type_per_col`. -/
def column_type (data : List (List Cell)) (number_rows j : Nat) : Option (Nat × Bool) :=
  match cell_at data 0 j with
  | none => none
  | some c0 =>
    if c0.2 = "std::string" then some (0, false)
    else
      match column_has_string data j number_rows 0 with
      | none => none
      | some is_str =>
        if is_str then some (0, false)
        else some (1, false)

/-- The first `for (j = 0; j < number_columns; j++)` loop: `n` iterations are left. -/
def type_loop (data : List (List Cell)) (number_rows : Nat) :
    Nat → Nat → Option (List (Nat × Bool))
  | 0, _ => some []
  | n + 1, j =>
    match column_type data number_rows j with
    | none => none
    | some t =>
      match type_loop data number_rows n (j + 1) with
      | none => none
      | some ts => some (t :: ts)

/-- A materialised cell handed to Octave: a string, or the result of `std::stof` on the
given text (the conversion itself is left uninterpreted). -/
inductive octave_value where
  | str (s : List Char)
  | stof (s : List Char)
deriving DecidableEq, Repr

/-- The inner loop of the second `for j` loop: builds `column` for column `j`. -/
def column_loop (data : List (List Cell)) (data_type_per_col : List Bool) (j : Nat) :
    Nat → Nat → Option (List octave_value)
  | 0, _ => some []
  | n + 1, i =>
    match data_type_per_col[j]?, cell_at data i j with
    | some flag, some c =>
      match column_loop data data_type_per_col j n (i + 1) with
      | none => none
      | some col =>
        if flag = false then some (octave_value.str c.1 :: col)
        else some (octave_value.stof c.1 :: col)
    | _, _ => none

/-- The second `for (j = 0; j < number_columns; j++)` loop. -/
def data_loop (data : List (List Cell)) (data_type_per_col : List Bool)
    (number_rows : Nat) : Nat → Nat → Option (List (List octave_value))
  | 0, _ => some []
  | n + 1, j =>
    match column_loop data data_type_per_col j number_rows 0 with
    | none => none
    | some col =>
      match data_loop data data_type_per_col number_rows n (j + 1) with
      | none => none
      | some cols => some (col :: cols)

/-- What `csv_matrix` returns, with `data_type_per_col` kept for inspection. -/
structure Retval where
  header_values : List (List Char)
  data : List (List octave_value)
  data_type : List Nat
  data_type_per_col : List Bool
deriving DecidableEq, Repr

/-- The part of `csv_matrix` after `table.read_record (...)`. -/
def csv_matrix_of_table (table : csv_datatype) : Option Retval :=
  let number_rows := table.data.length
  match table.data[0]? with
  | none => none
  | some row0 =>
    let number_columns := row0.length
    match type_loop table.data number_rows number_columns 0 with
    | none => none
    | some ts =>
      let data_type_per_col := ts.map Prod.snd
      match data_loop table.data data_type_per_col number_rows number_columns 0 with
      | none => none
      | some cols =>
        some ⟨table.header_csv, cols, ts.map Prod.fst, data_type_per_col⟩

/-- `csv_matrix (file_location, header_req)`. -/
def csv_matrix (file : Option (List (List Char))) (header_req : List Char) :
    Option Retval :=
  csv_matrix_of_table (read_record csv_datatype.fresh file header_req)

/-- The full-scan rule of the specification for column `j`, written from its words:
Text (0) if any cell of the column is Text, Numeric (1) otherwise. -/
def full_scan_type (data : List (List Cell)) (j : Nat) : Nat :=
  if data.any (fun row =>
      match row[j]? with
      | some c => decide (c.2 = "std::string")
      | none => false)
  then 0 else 1

end csv_reader

namespace oct_time_binsearch

/-! ## `__oct_time_binsearch__.cc` -/

/-- The ways a run of `binsearch` can fail to produce an index. -/
inductive Fault where
  /-- A read `arr[mid]` with `mid` outside `0 .. len - 1`. -/
  | out_of_range
  /-- The `error ("Total ordering violation ...")` branch. -/
  | ordering_violation
  /-- The iteration budget of the model was used up with the loop still running. -/
  | out_of_fuel
deriving DecidableEq, Repr

/-- `arr[mid]` for an `octave_idx_type` index. -/
def read_at (arr : List Int) (mid : Int) : Option Int :=
  if 0 ≤ mid then arr[mid.toNat]? else none

/-- The loop `while (low <= high) { ... }` together with the `if (!found)` after it,
for one needle `val`: returns the value stored in `out[i]`.  The first argument
bounds the number of iterations. -/
def search_loop (arr : List Int) (val : Int) : Nat → Int → Int → Except Fault Int
  | 0, low, high =>
    if low ≤ high then Except.error Fault.out_of_fuel
    else Except.ok (-1 * (low + 1))
  | fuel + 1, low, high =>
    if low ≤ high then
      let mid := (low + high).tdiv 2
      match read_at arr mid with
      | none => Except.error Fault.out_of_range
      | some a =>
        if a > val then search_loop arr val fuel low (mid - 1)
        else if a < val then search_loop arr val fuel (mid + 1) high
        else if a = val then Except.ok (mid + 1)
        else Except.error Fault.ordering_violation
    else Except.ok (-1 * (low + 1))

/-- The body of the `for i` loop of `binsearch` for the needle `val`:
`low = 0`, `high = len - 1`, then the search loop.  The interval `low .. high`
shrinks on every iteration, so `len` iterations are enough. -/
def search_one (arr : List Int) (val : Int) : Except Fault Int :=
  search_loop arr val arr.length 0 ((arr.length : Int) - 1)

/-- The `for i` loop of `binsearch` over the needles still to be processed. -/
def binsearch_loop (arr : List Int) : List Int → Except Fault (List Int)
  | [] => Except.ok []
  | val :: rest =>
    match search_one arr val with
    | Except.error e => Except.error e
    | Except.ok r =>
      match binsearch_loop arr rest with
      | Except.error e => Except.error e
      | Except.ok rs => Except.ok (r :: rs)

/-- `binsearch (vals, vals_len, arr, len)` with `T` an integer type. -/
def binsearch (vals : List Int) (arr : List Int) : Except Fault (List Int) :=
  binsearch_loop arr vals

/-- Octave's `builtin_type_t`, the result of `octave_value::builtin_type ()` (declared in
the Octave headers). -/
inductive builtin_type_t where
  | btyp_double
  | btyp_float
  | btyp_complex
  | btyp_float_complex
  | btyp_int8
  | btyp_int16
  | btyp_int32
  | btyp_int64
  | btyp_uint8
  | btyp_uint16
  | btyp_uint32
  | btyp_uint64
  | btyp_bool
  | btyp_char
  | btyp_struct
  | btyp_cell
  | btyp_func_handle
  | btyp_unknown
deriving DecidableEq, Repr

/-- An argument of the call: its builtin type and its elements.  Only integer-valued
elements are represented. -/
structure octave_value where
  builtin_type : builtin_type_t
  elems : List Int
deriving DecidableEq, Repr

/-- The errors a call of `__oct_time_binsearch__` can raise. -/
inductive CallError where
  /-- `error ("Invalid number of arguments: expected 2; got %ld", nargin)`. -/
  | invalid_number_of_arguments (nargin : Nat)
  /-- `error ("Inputs must be the same type")`. -/
  | inputs_must_be_same_type
  /-- `error ("Unsupported input data type")`. -/
  | unsupported_input_data_type
  /-- An accessor such as `arr.int8_array_value ()` rejected its argument. -/
  | conversion_failed
  /-- A fault inside `binsearch`. -/
  | search (f : Fault)
deriving DecidableEq, Repr

/-- One `case` of the `switch (vals_type)`: both arguments are read through the accessor
of the needles' type and handed to `binsearch`.  The accessor is a parameter:
`array_value t v` is what the accessor for type `t` returns on `v`, `none` when it
raises an error. -/
def search_case (array_value : builtin_type_t → octave_value → Option (List Int))
    (vals_type : builtin_type_t) (vals arr : octave_value) :
    Except CallError (List Int) :=
  match array_value vals_type vals, array_value vals_type arr with
  | some v, some a =>
    match binsearch v a with
    | Except.ok out => Except.ok out
    | Except.error f => Except.error (CallError.search f)
  | _, _ => Except.error CallError.conversion_failed

/-- The function defined by `DEFUN_DLD (__oct_time_binsearch__, args, nargout, ...)`. -/
def __oct_time_binsearch__
    (array_value : builtin_type_t → octave_value → Option (List Int))
    (args : List octave_value) : Except CallError (List Int) :=
  let nargin := args.length
  if nargin ≠ 2 then Except.error (CallError.invalid_number_of_arguments nargin)
  else
    match args[0]?, args[1]? with
    | some vals, some arr =>
      let vals_type := vals.builtin_type
      let arr_type := vals.builtin_type
      if vals_type ≠ arr_type then Except.error CallError.inputs_must_be_same_type
      else
        match vals_type with
        | builtin_type_t.btyp_double => search_case array_value vals_type vals arr
        | builtin_type_t.btyp_float => search_case array_value vals_type vals arr
        | builtin_type_t.btyp_int8 => search_case array_value vals_type vals arr
        | builtin_type_t.btyp_int16 => search_case array_value vals_type vals arr
        | builtin_type_t.btyp_int32 => search_case array_value vals_type vals arr
        | builtin_type_t.btyp_uint8 => search_case array_value vals_type vals arr
        | builtin_type_t.btyp_uint16 => search_case array_value vals_type vals arr
        | builtin_type_t.btyp_uint32 => search_case array_value vals_type vals arr
        | builtin_type_t.btyp_uint64 => search_case array_value vals_type vals arr
        | _ => Except.error CallError.unsupported_input_data_type
    | _, _ => Except.error (CallError.invalid_number_of_arguments nargin)

/-- The accessor on arguments whose elements are small integers, which every numeric type
represents exactly: it returns the elements unchanged. -/
def exact_array_value (_t : builtin_type_t) (v : octave_value) : Option (List Int) :=
  some v.elems

end oct_time_binsearch

/-! # Theorems -/

namespace csv_reader

/-! ## TypeClassifier -/

/-- The loop of `its_float`, entered with at most one dot counted so far, accepts exactly
the strings made of digits and dots whose dots, added to the counter, stay within one. -/
theorem its_float_loop_iff (v : List Char) :
    ∀ dots : Nat, dots ≤ 1 →
      (its_float_loop v dots = true ↔
        (∀ c ∈ v, digit_or_dot c) ∧ dots + v.count '.' ≤ 1) := by
  induction v with
  | nil => intro dots hd; simp [its_float_loop, hd]
  | cons i rest ih =>
    intro dots hd
    unfold its_float_loop
    by_cases hdot : i = '.'
    · subst hdot
      have hD : digit_or_dot '.' := Or.inr rfl
      by_cases h0 : dots = 0
      · subst h0
        simp [ih 1 (le_refl 1), hD]
      · have h1 : dots = 1 := by omega
        subst h1
        simp
    · have hne : ¬ (i == '.') = true := by simpa using hdot
      by_cases hdig : i < '0' ∨ i > '9'
      · have hnD : ¬ digit_or_dot i := by
          rintro (⟨h1, h2⟩ | h)
          · rcases hdig with h | h
            · exact absurd h1 (not_le.mpr h)
            · exact absurd h2 (not_le.mpr h)
          · exact hdot h
        simp [hdot, hdig, hnD]
      · have hD : digit_or_dot i := by
          left
          constructor
          · exact not_lt.mp (fun h => hdig (Or.inl h))
          · exact not_lt.mp (fun h => hdig (Or.inr h))
        have hd1 : ¬ dots > 1 := by omega
        simp only [hdot, hdig, and_false, if_false, hd1, ne_eq, not_false_eq_true, true_and]
        rw [ih dots hd]
        simp [hD, List.count_cons, hne]

/-- C1. `decide_value v` is the Numeric label `"std::float"` exactly when every character
of `v` is an ASCII digit or `.` and `v` holds at most one `.`; in every other case it is
the Text label `"std::string"`.  The listed examples: `123` and `12.3` are Numeric,
`12.3.4` and `abc` are Text, the empty string and the lone `.` are Numeric. -/
theorem decide_value_numeric_iff :
    (∀ v : List Char,
      (decide_value v = "std::float" ↔
        (∀ c ∈ v, ('0' ≤ c ∧ c ≤ '9') ∨ c = '.') ∧ v.count '.' ≤ 1) ∧
      (¬ ((∀ c ∈ v, ('0' ≤ c ∧ c ≤ '9') ∨ c = '.') ∧ v.count '.' ≤ 1) →
        decide_value v = "std::string")) ∧
    decide_value "123".toList = "std::float" ∧
    decide_value "12.3".toList = "std::float" ∧
    decide_value "12.3.4".toList = "std::string" ∧
    decide_value "abc".toList = "std::string" ∧
    decide_value [] = "std::float" ∧
    decide_value ['.'] = "std::float" := by
  refine ⟨fun v => ?_, by decide, by decide, by decide, by decide, by decide, by decide⟩
  have h := its_float_loop_iff v 0 (by omega)
  simp only [Nat.zero_add, digit_or_dot] at h
  unfold decide_value its_float
  by_cases hf : its_float_loop v 0 = true
  · have hP := h.mp hf
    rw [if_pos hf]
    exact ⟨⟨fun _ => hP, fun _ => rfl⟩, fun hn => absurd hP hn⟩
  · have hn := mt h.mpr hf
    rw [if_neg hf]
    exact ⟨⟨fun habs => absurd habs (by decide), fun habs => absurd habs hn⟩, fun _ => rfl⟩

/-! ## FieldSplitter -/

/-- Scanning a concatenation is scanning its parts one after the other. -/
theorem scan_from_append (s : SplitState) (a b : List Char) :
    scan_from s (a ++ b) = scan_from (scan_from s a) b := by
  simp [scan_from, List.foldl_append]

/-- Scanning starts with one step on the first character. -/
theorem scan_from_cons (s : SplitState) (c : Char) (l : List Char) :
    scan_from s (c :: l) = scan_from (split_step s c) l := rfl

/-- Outside quotes, characters other than the comma and the quote pile up in `temp`. -/
theorem scan_from_bare (f : List Char) (hq : '"' ∉ f) (hc : ',' ∉ f) :
    ∀ (t : List Char) (d : List (List Char)),
      scan_from ⟨0, t, d⟩ f = ⟨0, t ++ f, d⟩ := by
  induction f with
  | nil => intro t d; simp [scan_from]
  | cons c rest ih =>
    intro t d
    have hq1 : c ≠ '"' := fun h => hq (by simp [h])
    have hc1 : c ≠ ',' := fun h => hc (by simp [h])
    have hq2 : '"' ∉ rest := fun h => hq (List.mem_cons_of_mem _ h)
    have hc2 : ',' ∉ rest := fun h => hc (List.mem_cons_of_mem _ h)
    rw [scan_from_cons]
    simp only [split_step, hq1, hc1, if_false, Nat.zero_ne_one]
    rw [ih hq2 hc2]
    simp

/-- Inside quotes, every character other than the quote piles up in `temp`. -/
theorem scan_from_quoted (f : List Char) (hq : '"' ∉ f) :
    ∀ (t : List Char) (d : List (List Char)),
      scan_from ⟨1, t, d⟩ f = ⟨1, t ++ f, d⟩ := by
  induction f with
  | nil => intro t d; simp [scan_from]
  | cons c rest ih =>
    intro t d
    have hq1 : c ≠ '"' := fun h => hq (by simp [h])
    have hq2 : '"' ∉ rest := fun h => hq (List.mem_cons_of_mem _ h)
    rw [scan_from_cons]
    simp only [split_step, hq1, if_false, if_true]
    rw [ih hq2]
    simp

/-- Scanning one written field, bare or quoted, appends the field to `temp`. -/
theorem scan_from_write_field (f : List Char) (quoted : Bool) (hq : '"' ∉ f)
    (hc : quoted = false → ',' ∉ f) (t : List Char) (d : List (List Char)) :
    scan_from ⟨0, t, d⟩ (write_field f quoted) = ⟨0, t ++ f, d⟩ := by
  cases quoted with
  | false => simpa [write_field] using scan_from_bare f hq (hc rfl) t d
  | true =>
    simp only [write_field, if_true]
    rw [scan_from_append, scan_from_append]
    have h1 : scan_from ⟨0, t, d⟩ ['"'] = ⟨1, t, d⟩ := by
      simp [scan_from, split_step]
    rw [h1, scan_from_quoted f hq]
    simp [scan_from, split_step]

/-- Scanning a written line from the unquoted state with an empty buffer emits its
fields, in order, after those already emitted. -/
theorem finish_scan_write_line (fs : List (List Char × Bool)) :
    (∀ p ∈ fs, '"' ∉ p.1) → (∀ p ∈ fs, p.2 = false → ',' ∉ p.1) →
    (∀ p, fs.getLast? = some p → p.1 ≠ []) →
    ∀ d : List (List Char),
      finish (scan_from ⟨0, [], d⟩ (write_line fs)) = d ++ fs.map Prod.fst := by
  induction fs with
  | nil => intro _ _ _ d; simp [write_line, scan_from, finish]
  | cons p rest ih =>
    intro hq hc hl d
    have hp := scan_from_write_field p.1 p.2 (hq p (by simp)) (hc p (by simp)) [] d
    cases rest with
    | nil =>
      have hne : p.1 ≠ [] := hl p (by simp)
      simp only [write_line]
      rw [hp]
      simp [finish, hne]
    | cons q rest2 =>
      simp only [write_line]
      rw [scan_from_append, scan_from_append, hp]
      have h1 : scan_from ⟨0, [] ++ p.1, d⟩ [','] = ⟨0, [], d ++ [p.1]⟩ := by
        simp [scan_from, split_step]
      rw [h1]
      rw [ih (fun x hx => hq x (List.mem_cons_of_mem _ hx))
        (fun x hx => hc x (List.mem_cons_of_mem _ hx))
        (fun x hx => hl x (by simpa [List.getLast?_cons_cons] using hx))]
      simp

/-- The field values of `get_individual` are the contents of `devide` after the loop. -/
theorem split_eq_finish_scan (line : List Char) : split line = finish (scan line) := by
  simp [split, get_individual, Function.comp_def]

/-- C2. Round trip of the field splitter: take any list of fields in which no field holds
a double quote and the last field, if there is one, is not empty; write each field bare
(only when it holds no comma) or between two double quotes and join the pieces with
commas; splitting the line gives back exactly the fields, in order. -/
theorem split_write_line (fs : List (List Char × Bool))
    (hquote : ∀ p ∈ fs, '"' ∉ p.1)
    (hbare : ∀ p ∈ fs, p.2 = false → ',' ∉ p.1)
    (hlast : ∀ p, fs.getLast? = some p → p.1 ≠ []) :
    split (write_line fs) = fs.map Prod.fst := by
  rw [split_eq_finish_scan]
  simpa [scan] using finish_scan_write_line fs hquote hbare hlast []

/-- Witness for C2: the lines `a,b,c` and `a,"b,c",d`. -/
theorem split_write_line_witness :
    write_line [("a".toList, false), ("b,c".toList, true), ("d".toList, false)]
        = "a,\"b,c\",d".toList ∧
    split "a,\"b,c\",d".toList = ["a".toList, "b,c".toList, "d".toList] ∧
    split "a,b,c".toList = ["a".toList, "b".toList, "c".toList] :=
  ⟨by decide,
   split_write_line [("a".toList, false), ("b,c".toList, true), ("d".toList, false)]
     (by decide) (by decide) (by decide),
   split_write_line [("a".toList, false), ("b".toList, false), ("c".toList, false)]
     (by decide) (by decide) (by decide)⟩

/-- On a line without quotes the scan never leaves the unquoted state. -/
theorem scan_from_block_of_no_quote (l : List Char) (hq : '"' ∉ l) :
    ∀ (t : List Char) (d : List (List Char)), (scan_from ⟨0, t, d⟩ l).block = 0 := by
  induction l with
  | nil => intro t d; rfl
  | cons c rest ih =>
    intro t d
    have hq1 : c ≠ '"' := fun h => hq (by simp [h])
    have hq2 : '"' ∉ rest := fun h => hq (List.mem_cons_of_mem _ h)
    rw [scan_from_cons]
    by_cases hc : c = ','
    · simp only [split_step, hc, if_true, Nat.zero_ne_one, if_false]
      exact ih hq2 _ _
    · simp only [split_step, hc, hq1, if_false, Nat.zero_ne_one]
      exact ih hq2 _ _

/-- A comma met in the unquoted state emits the pending field and clears the buffer. -/
theorem finish_scan_from_comma (s : SplitState) (h0 : s.block = 0) (ht : s.temp ≠ []) :
    finish (scan_from s [',']) = finish s := by
  simp [scan_from, split_step, h0, finish, ht]

/-- C3. Trailing delimiter: when the scan of `s` ends outside quotes with a non-empty
pending field, splitting `s` followed by a comma gives the same fields as splitting `s`:
the final comma emits the pending field and no empty field follows it.  Every non-empty
line without quotes that does not end with a comma is such a line. -/
theorem split_trailing_comma (s : List Char) :
    ((scan s).block = 0 ∧ (scan s).temp ≠ [] → split (s ++ [',']) = split s) ∧
    (s ≠ [] ∧ '"' ∉ s ∧ s.getLast? ≠ some ',' →
      (scan s).block = 0 ∧ (scan s).temp ≠ []) := by
  constructor
  · rintro ⟨h0, ht⟩
    rw [split_eq_finish_scan, split_eq_finish_scan]
    unfold scan
    rw [scan_from_append]
    exact finish_scan_from_comma _ h0 ht
  · rintro ⟨hne, hq, hl⟩
    refine ⟨scan_from_block_of_no_quote s hq [] [], ?_⟩
    rcases List.eq_nil_or_concat s with h | ⟨l, c, rfl⟩
    · exact absurd h hne
    · have hc : c ≠ ',' := by
        intro h; apply hl; simp [h]
      have hq1 : c ≠ '"' := fun h => hq (by simp [h])
      have hq2 : '"' ∉ l := fun h => hq (by simp [h])
      unfold scan
      rw [List.concat_eq_append, scan_from_append]
      have hb := scan_from_block_of_no_quote l hq2 [] []
      simp [scan_from, split_step, hb, hc, hq1]

/-- Witness for C3: `split("a,") = split("a") = ["a"]`. -/
theorem split_trailing_comma_witness :
    ((scan "a".toList).block = 0 ∧ (scan "a".toList).temp ≠ []) ∧
    split "a,".toList = split "a".toList ∧
    split "a,".toList = ["a".toList] ∧
    ("a".toList ≠ [] ∧ '"' ∉ "a".toList ∧ "a".toList.getLast? ≠ some ',') :=
  ⟨by decide, (split_trailing_comma "a".toList).1 (by decide), by decide, by decide⟩

/-! ## Column types and materialisation (`csv_matrix`) -/

/-- When every row is at least as long as row 0, every cell `table.data[i][j]` with `i`
below the row count and `j` below the length of row 0 exists. -/
theorem cell_at_defined (data : List (List Cell)) (row0 : List Cell)
    (hlen : ∀ row ∈ data, row0.length ≤ row.length) (i j : Nat)
    (hi : i < data.length) (hj : j < row0.length) :
    ∃ c, cell_at data i j = some c := by
  have hrow : data[i]? = some data[i] := List.getElem?_eq_getElem hi
  have hl := hlen data[i] (List.getElem_mem hi)
  have hj2 : j < data[i].length := by omega
  exact ⟨data[i][j], by simp [cell_at, hrow, List.getElem?_eq_getElem hj2]⟩

/-- The row scan of one column: it completes when the cells it reads exist, and the
flag it returns says whether one of the rows `i .. i + n - 1` is tagged `std::string`. -/
theorem column_has_string_spec (data : List (List Cell)) (j : Nat) :
    ∀ n i : Nat, (∀ k, i ≤ k → k < i + n → ∃ c, cell_at data k j = some c) →
      ∃ b, column_has_string data j n i = some b ∧
        (b = true ↔ ∃ k c, i ≤ k ∧ k < i + n ∧ cell_at data k j = some c ∧
          c.2 = "std::string") := by
  intro n
  induction n with
  | zero =>
    intro i _
    refine ⟨false, rfl, ?_⟩
    constructor
    · intro h; exact absurd h (by decide)
    · rintro ⟨k, c, h1, h2, _⟩; omega
  | succ n ih =>
    intro i hdef
    obtain ⟨c, hc⟩ := hdef i (le_refl i) (by omega)
    unfold column_has_string
    rw [hc]
    by_cases hs : c.2 = "std::string"
    · refine ⟨true, by simp [hs], ?_⟩
      constructor
      · intro _; exact ⟨i, c, le_refl i, by omega, hc, hs⟩
      · intro _; rfl
    · obtain ⟨b, hb, hiff⟩ := ih (i + 1) (fun k h1 h2 => hdef k (by omega) (by omega))
      refine ⟨b, by simp [hs, hb], ?_⟩
      rw [hiff]
      constructor
      · rintro ⟨k, c2, h1, h2, h3, h4⟩
        exact ⟨k, c2, by omega, by omega, h3, h4⟩
      · rintro ⟨k, c2, h1, h2, h3, h4⟩
        have hki : k ≠ i := by
          intro h; subst h; rw [hc] at h3
          exact hs (by cases h3; exact h4)
        exact ⟨k, c2, by omega, by omega, h3, h4⟩

/-- The body of the column type loop on a column whose cells all exist: it stores 1 in
`data_type(j)` exactly when no row is tagged `std::string` at `j`, 0 otherwise, and it
pushes 0 (`false`) on `data_type_per_col` in every case. -/
theorem column_type_spec (data : List (List Cell)) (j : Nat)
    (hne : 0 < data.length)
    (hdef : ∀ k, k < data.length → ∃ c, cell_at data k j = some c) :
    ∃ t, column_type data data.length j = some (t, false) ∧
      (t = 1 ↔ ∀ i c, cell_at data i j = some c → c.2 ≠ "std::string") ∧
      (t = 0 ↔ ¬ ∀ i c, cell_at data i j = some c → c.2 ≠ "std::string") := by
  obtain ⟨c0, hc0⟩ := hdef 0 hne
  obtain ⟨b, hb, hiff⟩ := column_has_string_spec data j data.length 0
    (fun k _ h2 => hdef k (by omega))
  unfold column_type
  rw [hc0]
  by_cases hs : c0.2 = "std::string"
  · refine ⟨0, by simp [hs], ?_, ?_⟩
    · constructor
      · intro h; exact absurd h (by decide)
      · intro h; exact absurd hs (h 0 c0 hc0)
    · constructor
      · intro _ h; exact h 0 c0 hc0 hs
      · intro _; rfl
  · cases b with
    | true =>
      obtain ⟨k, c, _, _, h3, h4⟩ := hiff.mp rfl
      refine ⟨0, by simp [hs, hb], ?_, ?_⟩
      · constructor
        · intro h; exact absurd h (by decide)
        · intro h; exact absurd h4 (h k c h3)
      · constructor
        · intro _ h; exact h k c h3 h4
        · intro _; rfl
    | false =>
      have hnone : ∀ i c, cell_at data i j = some c → c.2 ≠ "std::string" := by
        intro i c hc hstr
        have hi : i < data.length := by
          by_contra hge
          have : data[i]? = none := List.getElem?_eq_none (by omega)
          simp [cell_at, this] at hc
        have := hiff.mpr ⟨i, c, by omega, by omega, hc, hstr⟩
        exact absurd this (by decide)
      refine ⟨1, by simp [hs, hb], ?_, ?_⟩
      · constructor
        · intro _; exact hnone
        · intro _; rfl
      · constructor
        · intro h; exact absurd h (by decide)
        · intro h; exact absurd hnone h

/-- The column type loop completes when each of its iterations does, and its `k`-th
result is that of the body at column `j + k`. -/
theorem type_loop_spec (data : List (List Cell)) (number_rows : Nat) :
    ∀ n j : Nat, (∀ k, k < n → ∃ t, column_type data number_rows (j + k) = some t) →
      ∃ ts, type_loop data number_rows n j = some ts ∧ ts.length = n ∧
        ∀ k, k < n → ts[k]? = column_type data number_rows (j + k) := by
  intro n
  induction n with
  | zero => intro j _; exact ⟨[], rfl, rfl, fun k hk => absurd hk (by omega)⟩
  | succ n ih =>
    intro j hdef
    obtain ⟨t, ht⟩ := hdef 0 (by omega)
    obtain ⟨ts, hts, hlen, hk⟩ := ih (j + 1) (fun k hk => by
      have := hdef (k + 1) (by omega)
      rwa [show j + (k + 1) = j + 1 + k by omega] at this)
    rw [Nat.add_zero] at ht
    refine ⟨t :: ts, by simp [type_loop, ht, hts], by simp [hlen], ?_⟩
    intro k hkn
    cases k with
    | zero => simp [ht]
    | succ k =>
      have := hk k (by omega)
      rw [show j + (k + 1) = j + 1 + k by omega]
      simpa using this

/-- The materialisation of one column completes when its flag and its cells exist; the
`k`-th entry is the value of row `i + k`, as a string when the flag is 0 and through
`std::stof` otherwise. -/
theorem column_loop_spec (data : List (List Cell)) (flags : List Bool) (j : Nat)
    (f : Bool) (hf : flags[j]? = some f) :
    ∀ n i : Nat, (∀ k, i ≤ k → k < i + n → ∃ c, cell_at data k j = some c) →
      ∃ col, column_loop data flags j n i = some col ∧ col.length = n ∧
        ∀ k, k < n → ∃ c, cell_at data (i + k) j = some c ∧
          col[k]? = some (if f = false then octave_value.str c.1
            else octave_value.stof c.1) := by
  intro n
  induction n with
  | zero => intro i _; exact ⟨[], rfl, rfl, fun k hk => absurd hk (by omega)⟩
  | succ n ih =>
    intro i hdef
    obtain ⟨c, hc⟩ := hdef i (le_refl i) (by omega)
    obtain ⟨col, hcol, hlen, hk⟩ := ih (i + 1) (fun k h1 h2 => hdef k (by omega) (by omega))
    refine ⟨(if f = false then octave_value.str c.1 else octave_value.stof c.1) :: col,
      ?_, by simp [hlen], ?_⟩
    · unfold column_loop
      rw [hf, hc]
      simp only [hcol]
      split <;> rfl
    · intro k hkn
      cases k with
      | zero => exact ⟨c, by simpa using hc, by simp⟩
      | succ k =>
        obtain ⟨c2, hc2, h2⟩ := hk k (by omega)
        refine ⟨c2, ?_, by simpa using h2⟩
        rw [show i + (k + 1) = i + 1 + k by omega]
        exact hc2

/-- The materialisation loop completes when each of its columns does, and its `k`-th
column is the result of the inner loop at column `j + k`. -/
theorem data_loop_spec (data : List (List Cell)) (flags : List Bool) (number_rows : Nat) :
    ∀ n j : Nat,
      (∀ k, k < n → ∃ col, column_loop data flags (j + k) number_rows 0 = some col) →
      ∃ cols, data_loop data flags number_rows n j = some cols ∧ cols.length = n ∧
        ∀ k, k < n → cols[k]? = column_loop data flags (j + k) number_rows 0 := by
  intro n
  induction n with
  | zero => intro j _; exact ⟨[], rfl, rfl, fun k hk => absurd hk (by omega)⟩
  | succ n ih =>
    intro j hdef
    obtain ⟨col, hcol⟩ := hdef 0 (by omega)
    obtain ⟨cols, hcols, hlen, hk⟩ := ih (j + 1) (fun k hk => by
      have := hdef (k + 1) (by omega)
      rwa [show j + (k + 1) = j + 1 + k by omega] at this)
    rw [Nat.add_zero] at hcol
    refine ⟨col :: cols, by simp [data_loop, hcol, hcols], by simp [hlen], ?_⟩
    intro k hkn
    cases k with
    | zero => simp [hcol]
    | succ k =>
      have := hk k (by omega)
      rw [show j + (k + 1) = j + 1 + k by omega]
      simpa using this

/-- On a table with at least one row whose rows are all at least as long as row 0,
`csv_matrix` runs to completion; column by column, its three outputs are those of the
loop bodies. -/
theorem csv_matrix_of_table_spec (table : csv_datatype) (row0 : List Cell)
    (h0 : table.data[0]? = some row0)
    (hlen : ∀ row ∈ table.data, row0.length ≤ row.length) :
    ∃ r, csv_matrix_of_table table = some r ∧
      r.header_values = table.header_csv ∧
      r.data_type.length = row0.length ∧
      r.data_type_per_col.length = row0.length ∧
      r.data.length = row0.length ∧
      ∀ j, j < row0.length →
        ∃ t col, column_type table.data table.data.length j = some (t, false) ∧
          r.data_type[j]? = some t ∧
          r.data_type_per_col[j]? = some false ∧
          r.data[j]? = some col ∧ col.length = table.data.length ∧
          ∀ i, i < table.data.length → ∃ c, cell_at table.data i j = some c ∧
            col[i]? = some (octave_value.str c.1) := by
  have hne : 0 < table.data.length := by
    by_contra h
    have : table.data[0]? = none := List.getElem?_eq_none (by omega)
    rw [this] at h0; cases h0
  have hcell := cell_at_defined table.data row0 hlen
  have hct : ∀ j, j < row0.length →
      ∃ t, column_type table.data table.data.length j = some (t, false) := by
    intro j hj
    obtain ⟨t, ht, _⟩ := column_type_spec table.data j hne (fun k hk => hcell k j hk hj)
    exact ⟨t, ht⟩
  obtain ⟨ts, hts, htslen, htsk⟩ := type_loop_spec table.data table.data.length
    row0.length 0 (fun k hk => by
      obtain ⟨t, ht⟩ := hct k hk
      exact ⟨(t, false), by simpa using ht⟩)
  have hflag : ∀ j, j < row0.length → (ts.map Prod.snd)[j]? = some false := by
    intro j hj
    obtain ⟨t, ht⟩ := hct j hj
    have := htsk j hj
    rw [Nat.zero_add, ht] at this
    simp [List.getElem?_map, this]
  have hcol : ∀ j, j < row0.length →
      ∃ col, column_loop table.data (ts.map Prod.snd) j table.data.length 0 = some col ∧
        col.length = table.data.length ∧
        ∀ i, i < table.data.length → ∃ c, cell_at table.data i j = some c ∧
          col[i]? = some (octave_value.str c.1) := by
    intro j hj
    obtain ⟨col, h1, h2, h3⟩ := column_loop_spec table.data (ts.map Prod.snd) j false
      (hflag j hj) table.data.length 0 (fun k _ hk => hcell k j (by omega) hj)
    refine ⟨col, h1, h2, fun i hi => ?_⟩
    obtain ⟨c, hc, hci⟩ := h3 i hi
    rw [Nat.zero_add] at hc
    exact ⟨c, hc, by simpa using hci⟩
  obtain ⟨cols, hcols, hcolslen, hcolsk⟩ := data_loop_spec table.data (ts.map Prod.snd)
    table.data.length row0.length 0 (fun k hk => by
      obtain ⟨col, h1, _⟩ := hcol k hk
      exact ⟨col, by simpa using h1⟩)
  refine ⟨⟨table.header_csv, cols, ts.map Prod.fst, ts.map Prod.snd⟩, ?_, rfl,
    by simp [htslen], by simp [htslen], hcolslen, ?_⟩
  · unfold csv_matrix_of_table
    simp only [h0, hts, hcols]
  · intro j hj
    obtain ⟨t, ht⟩ := hct j hj
    obtain ⟨col, h1, h2, h3⟩ := hcol j hj
    have htj := htsk j hj
    rw [Nat.zero_add, ht] at htj
    have hcj := hcolsk j hj
    rw [Nat.zero_add, h1] at hcj
    exact ⟨t, col, ht, by simp [List.getElem?_map, htj], hflag j hj, hcj, h2, h3⟩

/-- C4. Column type rule: on a completed table with at least one row, every row at least
as long as the first, `csv_matrix` reports for each column `j` below the first row's
length the type 1 (Numeric) exactly when no row has a cell tagged `std::string` at
index `j`, and the type 0 (Text) otherwise. -/
theorem data_type_numeric_iff (table : csv_datatype) (row0 : List Cell)
    (h0 : table.data[0]? = some row0)
    (hlen : ∀ row ∈ table.data, row0.length ≤ row.length) :
    ∃ r, csv_matrix_of_table table = some r ∧
      r.data_type.length = row0.length ∧
      ∀ j, j < row0.length →
        (r.data_type[j]? = some 1 ↔
          ∀ i c, cell_at table.data i j = some c → c.2 ≠ "std::string") ∧
        (¬ (∀ i c, cell_at table.data i j = some c → c.2 ≠ "std::string") →
          r.data_type[j]? = some 0) := by
  obtain ⟨r, hr, _, hl, _, _, hcols⟩ := csv_matrix_of_table_spec table row0 h0 hlen
  refine ⟨r, hr, hl, fun j hj => ?_⟩
  obtain ⟨t, col, ht, htj, _⟩ := hcols j hj
  have hne : 0 < table.data.length := by
    by_contra h
    have : table.data[0]? = none := List.getElem?_eq_none (by omega)
    rw [this] at h0; cases h0
  obtain ⟨t2, ht2, h1, h00⟩ := column_type_spec table.data j hne
    (fun k hk => cell_at_defined table.data row0 hlen k j hk hj)
  rw [ht] at ht2
  have hteq : t = t2 := by cases ht2; rfl
  subst hteq
  rw [htj]
  constructor
  · rw [← h1]; simp
  · intro hn; rw [h00.mpr hn]

/-- Witness for C4: the table read from the lines `1,x` and `2,3`; column 0 is Numeric,
column 1 is Text. -/
theorem data_type_numeric_iff_witness :
    ∃ r, csv_matrix_of_table
        ⟨[], [[("1".toList, "std::float"), ("x".toList, "std::string")],
              [("2".toList, "std::float"), ("3".toList, "std::float")]]⟩ = some r ∧
      r.data_type = [1, 0] := by
  obtain ⟨r, hr, _, _⟩ := data_type_numeric_iff
    ⟨[], [[("1".toList, "std::float"), ("x".toList, "std::string")],
          [("2".toList, "std::float"), ("3".toList, "std::float")]]⟩
    [("1".toList, "std::float"), ("x".toList, "std::string")] rfl (by decide)
  refine ⟨r, hr, ?_⟩
  have hd : csv_matrix_of_table
      ⟨[], [[("1".toList, "std::float"), ("x".toList, "std::string")],
            [("2".toList, "std::float"), ("3".toList, "std::float")]]⟩ =
      some ⟨[], [[octave_value.str "1".toList, octave_value.str "2".toList],
        [octave_value.str "x".toList, octave_value.str "3".toList]], [1, 0],
        [false, false]⟩ := by decide
  rw [hd] at hr
  cases hr
  rfl

/-! ## Table builder (`read_record`) -/

/-- The row loop appends the split of every remaining line, in order. -/
theorem read_rows_eq (lines : List (List Char)) :
    ∀ data : List (List Cell), read_rows lines data = data ++ lines.map get_individual := by
  induction lines with
  | nil => intro data; simp [read_rows]
  | cons l rest ih => intro data; simp [read_rows, ih]

/-- Each cell of `get_individual` pairs a field value with its classification. -/
theorem get_individual_eq_split (line : List Char) :
    get_individual line = (split line).map (fun f => (f, decide_value f)) := by
  simp [split, get_individual, Function.comp_def]

/-- C5. With the header flag `"1"` and a file of at least one line, starting from a fresh
table: the Header is the list of field strings of the first line, and the Rows are, in
file order, the remaining lines each mapped to its fields paired with their
classification; there are as many rows as remaining lines.  On the lines
`name,score`, `alice,10`, `bob,x` this gives the Header `name, score`, the two rows
`(alice, Text), (10, Numeric)` and `(bob, Text), (x, Text)`, and `csv_matrix` reports
the column types `Text, Text`. -/
theorem read_record_with_header :
    (∀ (first : List Char) (rest : List (List Char)),
      (read_record csv_datatype.fresh (some (first :: rest)) ['1']).header_csv
        = split first ∧
      (read_record csv_datatype.fresh (some (first :: rest)) ['1']).data
        = rest.map (fun line => (split line).map (fun f => (f, decide_value f))) ∧
      (read_record csv_datatype.fresh (some (first :: rest)) ['1']).data.length
        = rest.length) ∧
    read_record csv_datatype.fresh
        (some ["name,score".toList, "alice,10".toList, "bob,x".toList]) "1".toList
      = ⟨["name".toList, "score".toList],
         [[("alice".toList, "std::string"), ("10".toList, "std::float")],
          [("bob".toList, "std::string"), ("x".toList, "std::string")]]⟩ ∧
    (csv_matrix (some ["name,score".toList, "alice,10".toList, "bob,x".toList])
        "1".toList).map (fun r => r.data_type) = some [0, 0] := by
  refine ⟨fun first rest => ?_, by decide, by decide⟩
  have hd : (read_record csv_datatype.fresh (some (first :: rest)) ['1']).data
      = rest.map (fun line => (split line).map (fun f => (f, decide_value f))) := by
    simp [read_record, open_stream, getline, csv_datatype.fresh, read_rows_eq,
      get_individual_eq_split]
  refine ⟨?_, hd, ?_⟩
  · simp [read_record, open_stream, getline, csv_datatype.fresh, split]
  · rw [hd]; simp

/-- C6. For every header flag other than `"1"` and every file, starting from a fresh
table, the Header stays empty and every physical line, the first included, becomes a
data row, so there are as many rows as lines. -/
theorem read_record_without_header (header_required : List Char)
    (lines : List (List Char)) (hflag : header_required ≠ ['1']) :
    (read_record csv_datatype.fresh (some lines) header_required).header_csv = [] ∧
    (read_record csv_datatype.fresh (some lines) header_required).data
      = lines.map get_individual ∧
    (read_record csv_datatype.fresh (some lines) header_required).data.length
      = lines.length := by
  have hd : (read_record csv_datatype.fresh (some lines) header_required).data
      = lines.map get_individual := by
    simp [read_record, hflag, open_stream, csv_datatype.fresh, read_rows_eq]
  refine ⟨?_, hd, ?_⟩
  · simp [read_record, hflag, csv_datatype.fresh]
  · rw [hd]; simp

/-- Witness for C6: the flags `0`, the empty string, `true`, `01` and `1` followed by a
blank, on the file with the lines `name,score` and `alice,10`. -/
theorem read_record_without_header_witness :
    ("0".toList ≠ ['1'] ∧ "".toList ≠ ['1'] ∧ "true".toList ≠ ['1'] ∧
      "01".toList ≠ ['1'] ∧ "1 ".toList ≠ ['1']) ∧
    (read_record csv_datatype.fresh (some ["name,score".toList, "alice,10".toList])
        "0".toList).header_csv = [] ∧
    (read_record csv_datatype.fresh (some ["name,score".toList, "alice,10".toList])
        "0".toList).data.length = 2 ∧
    (read_record csv_datatype.fresh (some ["name,score".toList, "alice,10".toList])
        "1 ".toList).data.length = 2 ∧
    (read_record csv_datatype.fresh (some ["name,score".toList, "alice,10".toList])
        "1".toList).header_csv = ["name".toList, "score".toList] :=
  ⟨by decide,
   (read_record_without_header "0".toList ["name,score".toList, "alice,10".toList]
     (by decide)).1,
   (read_record_without_header "0".toList ["name,score".toList, "alice,10".toList]
     (by decide)).2.2,
   (read_record_without_header "1 ".toList ["name,score".toList, "alice,10".toList]
     (by decide)).2.2,
   by decide⟩

/-- Reading a file with no lines with the header flag `"1"`, from a fresh table, leaves
an empty Header and zero rows; `read_record` has no failure exit. -/
theorem read_record_empty_file :
    read_record csv_datatype.fresh (some []) ['1'] = ⟨[], []⟩ ∧
    (read_record csv_datatype.fresh (some []) ['1']).header_csv = [] ∧
    (read_record csv_datatype.fresh (some []) ['1']).data.length = 0 := by
  decide

/-- What `csv_matrix` does after ingesting an empty file: it reads `table.data[0]`, which
does not exist. -/
theorem csv_matrix_empty_file (header_req : List Char) :
    csv_matrix (some []) header_req = none := by
  by_cases h : header_req = ['1'] <;>
    simp [csv_matrix, csv_matrix_of_table, read_record, h, open_stream, getline,
      get_individual, scan, scan_from, finish, read_rows, csv_datatype.fresh]

/-- C7, as the code behaves.  On a file with no lines and the header flag `"1"`,
`read_record` does leave an empty Header and zero rows, but the run does not end without
failure: `csv_matrix` goes on to take the column count from `table.data[0]`, a row the
empty table does not have, so the call made on the file produces no result. -/
theorem empty_file_end_to_end :
    read_record csv_datatype.fresh (some []) ['1'] = ⟨[], []⟩ ∧
    (read_record csv_datatype.fresh (some []) ['1']).data[0]? = none ∧
    csv_matrix_of_table (read_record csv_datatype.fresh (some []) ['1']) = none ∧
    csv_matrix (some []) ['1'] = none := by
  decide

/-- Counterexample to C8: with the file missing, `read_record` reports nothing and
returns the empty table, the very result it gives for an empty file. -/
theorem read_record_missing_file_silent :
    read_record csv_datatype.fresh none ['1'] = ⟨[], []⟩ ∧
    read_record csv_datatype.fresh none ['1']
      = read_record csv_datatype.fresh (some []) ['1'] := by
  decide

/-- C8, amended. When the file cannot be opened, `read_record` reports no failure: it
leaves the table as it was, so from a fresh table the result is the empty table (empty
Header, zero rows), the same as for a file with no lines, whatever the header flag. -/
theorem read_record_missing_file (table : csv_datatype) (header_required : List Char) :
    read_record table none header_required = table ∧
    read_record table none header_required
      = read_record table (some []) header_required ∧
    read_record csv_datatype.fresh none header_required = ⟨[], []⟩ := by
  have h : ∀ t : csv_datatype, read_record t none header_required = t := by
    intro t
    by_cases hf : header_required = ['1'] <;>
      simp [read_record, hf, open_stream, getline, get_individual, scan, scan_from,
        finish, read_rows]
  exact ⟨h table, rfl, h _⟩

/-! ## Materialisation flags -/

/-- Whatever branch the body of the column type loop takes, the flag it pushes on
`data_type_per_col` is 0. -/
theorem column_type_flag (data : List (List Cell)) (number_rows j : Nat)
    (t : Nat × Bool) (h : column_type data number_rows j = some t) : t.2 = false := by
  unfold column_type at h
  split at h
  · cases h
  · split at h
    · cases h; rfl
    · split at h
      · cases h
      · split at h <;> (cases h; rfl)

/-- Every flag the column type loop collects is 0. -/
theorem type_loop_flags (data : List (List Cell)) (number_rows : Nat) :
    ∀ (n j : Nat) (ts : List (Nat × Bool)), type_loop data number_rows n j = some ts →
      ∀ t ∈ ts, t.2 = false := by
  intro n
  induction n with
  | zero =>
    intro j ts h
    simp only [type_loop] at h
    cases h
    intro t ht
    cases ht
  | succ n ih =>
    intro j ts h
    unfold type_loop at h
    split at h
    · cases h
    · rename_i t0 ht0
      split at h
      · cases h
      · rename_i ts0 hts0
        cases h
        intro t ht
        rcases List.mem_cons.mp ht with h1 | h1
        · rw [h1]; exact column_type_flag data number_rows j t0 ht0
        · exact ih (j + 1) ts0 hts0 t h1

/-- C10, as the code behaves.  On the file with the single line `1` (no header)
`csv_matrix` reports column 0 as Numeric (`data_type = [1]`) and yet its materialisation
flag is 0 and the cell comes back as the string `1`, not through `std::stof`.  The flag
is 0 for every column of every table `csv_matrix` completes on. -/
theorem data_type_per_col_always_zero :
    csv_matrix (some ["1".toList]) "0".toList
      = some ⟨[], [[octave_value.str "1".toList]], [1], [false]⟩ ∧
    (∀ (table : csv_datatype) (r : Retval), csv_matrix_of_table table = some r →
      ∀ f ∈ r.data_type_per_col, f = false) := by
  refine ⟨by decide, ?_⟩
  intro table r h f hf
  unfold csv_matrix_of_table at h
  split at h
  · cases h
  · simp only [] at h
    split at h
    · cases h
    · rename_i ts hts
      split at h
      · cases h
      · cases h
        obtain ⟨t, ht, rfl⟩ := List.mem_map.mp hf
        exact type_loop_flags _ _ _ _ ts hts t ht

/-! ## Row-0 shortcut, uneven rows and index safety -/

/-- The full-scan rule gives Numeric exactly when no row is tagged `std::string` at
column `j`. -/
theorem full_scan_type_eq_one_iff (data : List (List Cell)) (j : Nat) :
    full_scan_type data j = 1 ↔
      ∀ i c, cell_at data i j = some c → c.2 ≠ "std::string" := by
  unfold full_scan_type
  constructor
  · intro h i c hc hs
    have hany : data.any (fun row =>
        match row[j]? with
        | some c => decide (c.2 = "std::string")
        | none => false) = true := by
      rw [List.any_eq_true]
      unfold cell_at at hc
      cases hrow : data[i]? with
      | none => rw [hrow] at hc; cases hc
      | some row =>
        rw [hrow] at hc
        simp only at hc
        obtain ⟨hi, hrow2⟩ := List.getElem?_eq_some.mp hrow
        exact ⟨row, hrow2 ▸ List.getElem_mem hi, by simp [hc, hs]⟩
    rw [if_pos hany] at h
    exact absurd h (by decide)
  · intro h
    have hany : ¬ data.any (fun row =>
        match row[j]? with
        | some c => decide (c.2 = "std::string")
        | none => false) = true := by
      rw [List.any_eq_true]
      rintro ⟨row, hmem, hrow⟩
      obtain ⟨i, hi, hget⟩ := List.mem_iff_getElem.mp hmem
      cases hc : row[j]? with
      | none => simp [hc] at hrow
      | some c =>
        simp only [hc, decide_eq_true_eq] at hrow
        refine h i c ?_ hrow
        simp [cell_at, List.getElem?_eq_getElem hi, hget, hc]
    rw [if_neg hany]

/-- The full-scan rule only ever gives 0 or 1. -/
theorem full_scan_type_cases (data : List (List Cell)) (j : Nat) :
    full_scan_type data j = 0 ∨ full_scan_type data j = 1 := by
  unfold full_scan_type
  split
  · exact Or.inl rfl
  · exact Or.inr rfl

/-- On a table with at least one row whose rows are all at least as long as row 0, the
column type `csv_matrix` reports for every column is the one the full-scan rule gives. -/
theorem data_type_eq_full_scan (table : csv_datatype) (row0 : List Cell)
    (h0 : table.data[0]? = some row0)
    (hlen : ∀ row ∈ table.data, row0.length ≤ row.length) :
    ∃ r, csv_matrix_of_table table = some r ∧
      ∀ j, j < row0.length → r.data_type[j]? = some (full_scan_type table.data j) := by
  obtain ⟨r, hr, _, _, _, _, hcols⟩ := csv_matrix_of_table_spec table row0 h0 hlen
  refine ⟨r, hr, fun j hj => ?_⟩
  obtain ⟨t, col, ht, htj, _⟩ := hcols j hj
  have hne : 0 < table.data.length := by
    by_contra h
    have : table.data[0]? = none := List.getElem?_eq_none (by omega)
    rw [this] at h0; cases h0
  obtain ⟨t2, ht2, h1, h00⟩ := column_type_spec table.data j hne
    (fun k hk => cell_at_defined table.data row0 hlen k j hk hj)
  rw [ht] at ht2
  have hteq : t = t2 := by cases ht2; rfl
  subst hteq
  rw [htj]
  rcases full_scan_type_cases table.data j with hf | hf
  · have hn : ¬ ∀ i c, cell_at table.data i j = some c → c.2 ≠ "std::string" := by
      intro hall
      have := (full_scan_type_eq_one_iff table.data j).mpr hall
      omega
    rw [hf, h00.mpr hn]
  · rw [hf, h1.mpr ((full_scan_type_eq_one_iff table.data j).mp hf)]


/-- Counterexample to C11: no table with at least one row and rows of equal length, mixed
at column `j` or not, makes `csv_matrix` report a type for column `j` other than the one
of the full-scan rule. -/
theorem no_row0_shortcut_discrepancy :
    ¬ ∃ (table : csv_datatype) (row0 : List Cell) (j : Nat) (r : Retval) (t : Nat),
      table.data[0]? = some row0 ∧
      (∀ row ∈ table.data, row.length = row0.length) ∧
      j < row0.length ∧
      (∃ i c0 ci, 0 < i ∧ cell_at table.data 0 j = some c0 ∧
        cell_at table.data i j = some ci ∧
        ((c0.2 ≠ "std::string" ∧ ci.2 = "std::string") ∨
         (c0.2 = "std::string" ∧ ci.2 ≠ "std::string"))) ∧
      csv_matrix_of_table table = some r ∧
      r.data_type[j]? = some t ∧
      t ≠ full_scan_type table.data j := by
  rintro ⟨table, row0, j, r, t, h0, heq, hj, _, hr, ht, hne⟩
  obtain ⟨r2, hr2, hall⟩ := data_type_eq_full_scan table row0 h0
    (fun row hrow => le_of_eq (heq row hrow).symm)
  rw [hr] at hr2
  cases hr2
  rw [hall j hj] at ht
  cases ht
  exact hne rfl

/-- C11, amended.  On every table with at least one row and rows of equal length, the
column type `csv_matrix` reports for each column `j` is the one of the full-scan rule
(Text if any cell is Text, Numeric otherwise); in particular it is Text (0) whenever
row 0 or any later row is Text at `j`.  The look at row 0 only spares the scan. -/
theorem row0_shortcut_agrees (table : csv_datatype) (row0 : List Cell)
    (h0 : table.data[0]? = some row0)
    (heq : ∀ row ∈ table.data, row.length = row0.length) :
    ∃ r, csv_matrix_of_table table = some r ∧
      ∀ j, j < row0.length →
        r.data_type[j]? = some (full_scan_type table.data j) ∧
        (∀ i c, cell_at table.data i j = some c → c.2 = "std::string" →
          r.data_type[j]? = some 0) := by
  obtain ⟨r, hr, hall⟩ := data_type_eq_full_scan table row0 h0
    (fun row hrow => le_of_eq (heq row hrow).symm)
  refine ⟨r, hr, fun j hj => ⟨hall j hj, fun i c hc hs => ?_⟩⟩
  rw [hall j hj]
  rcases full_scan_type_cases table.data j with hf | hf
  · rw [hf]
  · exact absurd hs ((full_scan_type_eq_one_iff table.data j).mp hf i c hc)

/-- Witness for C11, amended: row 0 Numeric and row 1 Text, and the other way round; both
columns are reported Text, as the full-scan rule says. -/
theorem row0_shortcut_agrees_witness :
    (∃ r, csv_matrix_of_table
        ⟨[], [[("1".toList, "std::float"), ("x".toList, "std::string")],
              [("y".toList, "std::string"), ("2".toList, "std::float")]]⟩ = some r ∧
      ∀ j, j < 2 →
        r.data_type[j]? = some (full_scan_type
          [[("1".toList, "std::float"), ("x".toList, "std::string")],
           [("y".toList, "std::string"), ("2".toList, "std::float")]] j) ∧
        (∀ i c, cell_at
          [[("1".toList, "std::float"), ("x".toList, "std::string")],
           [("y".toList, "std::string"), ("2".toList, "std::float")]] i j = some c →
          c.2 = "std::string" → r.data_type[j]? = some 0)) ∧
    (csv_matrix_of_table
        ⟨[], [[("1".toList, "std::float"), ("x".toList, "std::string")],
              [("y".toList, "std::string"), ("2".toList, "std::float")]]⟩).map
      (fun r => r.data_type) = some [0, 0] :=
  ⟨row0_shortcut_agrees
    ⟨[], [[("1".toList, "std::float"), ("x".toList, "std::string")],
          [("y".toList, "std::string"), ("2".toList, "std::float")]]⟩
    [("1".toList, "std::float"), ("x".toList, "std::string")] rfl (by decide),
   by decide⟩

/-- C12. Uneven rows: the file with the lines `1,2` and `3,` (no header) is read without
any error into rows of 2 and 1 cells, the trailing empty field being dropped; `csv_matrix`
takes 2 columns from row 0 and, scanning column 1, reads `table.data[1][1]`, which does
not exist. -/
theorem uneven_rows_out_of_range :
    ∃ lines : List (List Char),
      lines = ["1,2".toList, "3,".toList] ∧
      read_record csv_datatype.fresh (some lines) "0".toList
        = ⟨[], [[("1".toList, "std::float"), ("2".toList, "std::float")],
                [("3".toList, "std::float")]]⟩ ∧
      (read_record csv_datatype.fresh (some lines) "0".toList).data.map List.length
        = [2, 1] ∧
      cell_at (read_record csv_datatype.fresh (some lines) "0".toList).data 1 1 = none ∧
      column_type (read_record csv_datatype.fresh (some lines) "0".toList).data 2 0
        = some (1, false) ∧
      column_type (read_record csv_datatype.fresh (some lines) "0".toList).data 2 1
        = none ∧
      csv_matrix (some lines) "0".toList = none :=
  ⟨["1,2".toList, "3,".toList], by decide⟩

/-- C19. Index safety of `csv_matrix`: on a table with at least one row whose rows are all
at least as long as row 0, every `table.data[i][j]` with `i` below the row count and `j`
below the column count has `j` below the length of row `i`; the column type loop
completes with one flag per column, so `data_type_per_col[j]` exists for every column;
the materialisation loop completes; the run never takes an out-of-range read. -/
theorem csv_matrix_index_safety (table : csv_datatype) (row0 : List Cell)
    (h0 : table.data[0]? = some row0)
    (hlen : ∀ row ∈ table.data, row0.length ≤ row.length) :
    (∀ i j, i < table.data.length → j < row0.length →
      ∃ row c, table.data[i]? = some row ∧ j < row.length ∧
        cell_at table.data i j = some c) ∧
    (∃ ts, type_loop table.data table.data.length row0.length 0 = some ts ∧
      (ts.map Prod.snd).length = row0.length ∧
      (∀ j, j < row0.length → ∃ flag, (ts.map Prod.snd)[j]? = some flag) ∧
      ∃ cols, data_loop table.data (ts.map Prod.snd) table.data.length row0.length 0
        = some cols) ∧
    (∃ r, csv_matrix_of_table table = some r ∧
      r.data_type_per_col.length = row0.length) := by
  obtain ⟨r, hr, _, _, hpc, _, hcols⟩ := csv_matrix_of_table_spec table row0 h0 hlen
  refine ⟨?_, ?_, r, hr, hpc⟩
  · intro i j hi hj
    obtain ⟨c, hc⟩ := cell_at_defined table.data row0 hlen i j hi hj
    have hl := hlen table.data[i] (List.getElem_mem hi)
    exact ⟨table.data[i], c, List.getElem?_eq_getElem hi, by omega, hc⟩
  · unfold csv_matrix_of_table at hr
    rw [h0] at hr
    simp only at hr
    split at hr
    · cases hr
    · rename_i ts hts
      split at hr
      · cases hr
      · rename_i cols hcols2
        cases hr
        simp only [List.length_map] at hpc
        refine ⟨ts, hts, by simpa using hpc, fun j hj => ?_, cols, hcols2⟩
        have hj2 : j < (ts.map Prod.snd).length := by simpa [hpc] using hj
        exact ⟨_, List.getElem?_eq_getElem hj2⟩

/-- Witness for C19: the table read from the lines `1,x` and `2,3`. -/
theorem csv_matrix_index_safety_witness :
    csv_matrix_of_table
        ⟨[], [[("1".toList, "std::float"), ("x".toList, "std::string")],
              [("2".toList, "std::float"), ("3".toList, "std::float")]]⟩ ≠ none := by
  obtain ⟨_, _, r, hr, _⟩ := csv_matrix_index_safety
    ⟨[], [[("1".toList, "std::float"), ("x".toList, "std::string")],
          [("2".toList, "std::float"), ("3".toList, "std::float")]]⟩
    [("1".toList, "std::float"), ("x".toList, "std::string")] rfl (by decide)
  rw [hr]
  exact Option.some_ne_none r

/-! ## FieldSplitter: content, partial quoting, reference split -/

/-- One step of the scan adds to the emitted content exactly what the content rule keeps
of the character. -/
theorem scan_from_content (line : List Char) :
    ∀ s : SplitState,
      (scan_from s line).devide.flatten ++ (scan_from s line).temp
        = s.devide.flatten ++ s.temp ++ strip_from (decide (s.block = 1)) line := by
  induction line with
  | nil => intro s; simp [scan_from, strip_from]
  | cons c rest ih =>
    intro s
    rw [scan_from_cons, ih]
    unfold split_step
    by_cases hb : s.block = 1
    · by_cases hq : c = '"'
      · simp [hb, hq, strip_from]
      · simp [hb, hq, strip_from]
    · by_cases hc : c = ','
      · simp [hb, hc, strip_from]
      · by_cases hq : c = '"'
        · simp [hb, hq, strip_from]
        · simp [hb, hc, hq, strip_from]

/-- The concatenation of the final fields is the emitted content plus the pending field. -/
theorem flatten_finish (s : SplitState) :
    (finish s).flatten = s.devide.flatten ++ s.temp := by
  unfold finish
  by_cases h : s.temp = []
  · simp [h]
  · simp [h]

/-- No step of the scan puts a double quote into a field. -/
theorem scan_from_no_quote_in_fields (line : List Char) :
    ∀ s : SplitState, (∀ f ∈ s.devide, '"' ∉ f) → '"' ∉ s.temp →
      (∀ f ∈ (scan_from s line).devide, '"' ∉ f) ∧ '"' ∉ (scan_from s line).temp := by
  induction line with
  | nil => intro s hd ht; exact ⟨hd, ht⟩
  | cons c rest ih =>
    intro s hd ht
    rw [scan_from_cons]
    apply ih
    · unfold split_step
      by_cases hb : s.block = 1
      · by_cases hq : c = '"'
        · simpa [hb, hq] using hd
        · simpa [hb, hq] using hd
      · by_cases hc : c = ','
        · simp only [hb, hc, if_true, if_false]
          intro f hf
          rcases List.mem_append.mp hf with h | h
          · exact hd f h
          · rw [List.mem_singleton.mp h]; exact ht
        · by_cases hq : c = '"'
          · simpa [hb, hc, hq] using hd
          · simpa [hb, hc, hq] using hd
    · unfold split_step
      by_cases hb : s.block = 1
      · by_cases hq : c = '"'
        · simpa [hb, hq] using ht
        · simp only [hb, hq, if_true, if_false]
          intro h
          rcases List.mem_append.mp h with h | h
          · exact ht h
          · exact hq (List.mem_singleton.mp h).symm
      · by_cases hc : c = ','
        · simp [hb, hc]
        · by_cases hq : c = '"'
          · simpa [hb, hc, hq] using ht
          · simp only [hb, hc, hq, if_false]
            intro h
            rcases List.mem_append.mp h with h | h
            · exact ht h
            · exact hq (List.mem_singleton.mp h).symm

/-- Inside a quoted region the content rule keeps every character that is not a quote,
commas included. -/
theorem strip_from_quoted (b : List Char) (hq : '"' ∉ b) : strip_from true b = b := by
  induction b with
  | nil => rfl
  | cons c rest ih =>
    have hq1 : c ≠ '"' := fun h => hq (by simp [h])
    have hq2 : '"' ∉ rest := fun h => hq (List.mem_cons_of_mem _ h)
    simp [strip_from, hq1, ih hq2]

/-- C13. Content preservation of the field splitter: for every line, the concatenation of
the field values of `get_individual` is the line with every double quote removed and
every comma outside a quoted region removed; no field holds a double quote; inside a
quoted region every character, commas included, is kept literally. -/
theorem split_content (line : List Char) :
    (split line).flatten = strip_from false line ∧
    (∀ f ∈ split line, '"' ∉ f) ∧
    (∀ b : List Char, '"' ∉ b → strip_from true b = b) ∧
    (split "a,\"b,c\",d".toList).flatten = "ab,cd".toList := by
  refine ⟨?_, ?_, strip_from_quoted, by decide⟩
  · rw [split_eq_finish_scan, flatten_finish]
    unfold scan
    rw [scan_from_content]
    simp
  · rw [split_eq_finish_scan]
    obtain ⟨hd, ht⟩ := scan_from_no_quote_in_fields line ⟨0, [], []⟩
      (fun f hf => by cases hf) (by simp)
    intro f hf
    unfold finish at hf
    unfold scan at hf
    split at hf
    · rcases List.mem_append.mp hf with h | h
      · exact hd f h
      · rw [List.mem_singleton.mp h]; exact ht
    · exact hd f hf

/-- C14. Partial quoting: for `a` and `c` without comma and without double quote, `b`
without double quote, and `a ++ b ++ c` not empty, the line `a"b"c` splits into the
single field `a ++ b ++ c`: the quoted region opened inside the field is merged into it,
its commas kept and its quotes dropped. -/
theorem split_partial_quoting (a b c : List Char)
    (haq : '"' ∉ a) (hac : ',' ∉ a) (hbq : '"' ∉ b) (hcq : '"' ∉ c) (hcc : ',' ∉ c)
    (hne : a ++ b ++ c ≠ []) :
    split (a ++ ['"'] ++ b ++ ['"'] ++ c) = [a ++ b ++ c] := by
  rw [split_eq_finish_scan]
  unfold scan
  rw [scan_from_append, scan_from_append, scan_from_append, scan_from_append,
    scan_from_bare a haq hac]
  have h1 : scan_from ⟨0, [] ++ a, []⟩ ['"'] = ⟨1, a, []⟩ := by
    simp [scan_from, split_step]
  rw [h1, scan_from_quoted b hbq]
  have h2 : scan_from ⟨1, a ++ b, []⟩ ['"'] = ⟨0, a ++ b, []⟩ := by
    simp [scan_from, split_step]
  rw [h2, scan_from_bare c hcq hcc]
  have hne2 : ¬ (a ++ b ++ c = []) := hne
  simp only [finish, ne_eq, hne2, not_false_eq_true, if_true, List.nil_append]

/-- Witness for C14: `ab"c,d"e` splits into the single field `abc,de`. -/
theorem split_partial_quoting_witness :
    split "ab\"c,d\"e".toList = ["abc,de".toList] :=
  split_partial_quoting "ab".toList "c,d".toList "e".toList
    (by decide) (by decide) (by decide) (by decide) (by decide) (by decide)


/-- The ordinary split on `,`, one character at a time. -/
theorem splitOn_comma_cons (c : Char) (rest : List Char) :
    (c :: rest).splitOn ',' =
      if c = ',' then [] :: rest.splitOn ','
      else List.modifyHead (List.cons c) (rest.splitOn ',') := by
  unfold List.splitOn
  rw [List.splitOnP_cons]
  by_cases h : c = ','
  · simp [h]
  · simp [h]

/-- The ordinary split never returns the empty list of pieces. -/
theorem splitOn_comma_ne_nil (line : List Char) : line.splitOn ',' ≠ [] := by
  cases line with
  | nil => decide
  | cons c rest =>
    rw [splitOn_comma_cons]
    by_cases h : c = ','
    · simp [h]
    · have ih := splitOn_comma_ne_nil rest
      simp only [h, if_false]
      cases hs : rest.splitOn ',' with
      | nil => exact absurd hs ih
      | cons p ps => simp [List.modifyHead]

/-- The ordinary split yields one more piece than there are commas. -/
theorem splitOn_comma_length (line : List Char) :
    (line.splitOn ',').length = line.count ',' + 1 := by
  induction line with
  | nil => decide
  | cons c rest ih =>
    rw [splitOn_comma_cons]
    by_cases h : c = ','
    · simp [h, ih]
    · have hne : ¬ (c == ',') = true := by simpa using h
      have hl : (List.modifyHead (List.cons c) (rest.splitOn ',')).length
          = (rest.splitOn ',').length := by
        cases rest.splitOn ',' <;> simp [List.modifyHead]
      simp only [h, if_false, hl, ih, List.count_cons, hne]
      rfl

/-- On a line without quotes, the fields emitted plus the pending one are the fields
emitted before plus the pieces of the ordinary split, the first piece continuing the
field that was pending. -/
theorem scan_from_eq_splitOn (line : List Char) (hq : '"' ∉ line) :
    ∀ (t : List Char) (d : List (List Char)),
      (scan_from ⟨0, t, d⟩ line).devide ++ [(scan_from ⟨0, t, d⟩ line).temp]
        = d ++ List.modifyHead (fun p => t ++ p) (line.splitOn ',') := by
  induction line with
  | nil => intro t d; simp [scan_from, List.splitOn_nil, List.modifyHead]
  | cons c rest ih =>
    intro t d
    have hq1 : c ≠ '"' := fun h => hq (by simp [h])
    have hq2 : '"' ∉ rest := fun h => hq (List.mem_cons_of_mem _ h)
    rw [scan_from_cons, splitOn_comma_cons]
    by_cases hc : c = ','
    · simp only [split_step, hc, if_true, Nat.zero_ne_one, if_false]
      rw [ih hq2]
      have hid : List.modifyHead (fun p => ([] : List Char) ++ p) (rest.splitOn ',')
          = rest.splitOn ',' := by
        cases rest.splitOn ',' <;> simp [List.modifyHead]
      rw [hid]
      simp [List.modifyHead]
    · simp only [split_step, hc, hq1, if_false, Nat.zero_ne_one]
      rw [ih hq2]
      cases rest.splitOn ',' with
      | nil => simp [List.modifyHead]
      | cons p ps => simp [List.modifyHead]

/-- On a line without quotes the pending field is empty at the end exactly when the line
is empty or ends with a comma. -/
theorem scan_temp_eq_nil_iff (line : List Char) (hq : '"' ∉ line) :
    (scan line).temp = [] ↔ (line = [] ∨ line.getLast? = some ',') := by
  rcases List.eq_nil_or_concat line with h | ⟨l, c, rfl⟩
  · subst h; simp [scan, scan_from]
  · have hq1 : c ≠ '"' := fun h => hq (by simp [h])
    have hq2 : '"' ∉ l := fun h => hq (by simp [h])
    have hb := scan_from_block_of_no_quote l hq2 [] []
    unfold scan
    rw [List.concat_eq_append, scan_from_append]
    have h1 : scan_from (scan_from ⟨0, [], []⟩ l) [c]
        = split_step (scan_from ⟨0, [], []⟩ l) c := rfl
    rw [h1]
    generalize scan_from ⟨0, [], []⟩ l = s at hb
    by_cases hc : c = ','
    · simp [split_step, hb, hc]
    · simp [split_step, hb, hc, hq1]

/-- On a line without quotes the scan emits one field per comma. -/
theorem scan_devide_length (line : List Char) (hq : '"' ∉ line) :
    (scan line).devide.length = line.count ',' := by
  have hs := scan_from_eq_splitOn line hq [] []
  have hid : List.modifyHead (fun p => ([] : List Char) ++ p) (line.splitOn ',')
      = line.splitOn ',' := by
    cases line.splitOn ',' <;> simp [List.modifyHead]
  rw [hid, List.nil_append] at hs
  have h := congrArg List.length hs
  rw [List.length_append, List.length_singleton, splitOn_comma_length] at h
  unfold scan
  omega

/-- C15. Field splitter against the reference split: on a line without double quotes the
field values of `get_individual` are the pieces of the ordinary split on `,` (one more
piece than there are commas), the last piece removed when it is empty; the number of
fields is the number of commas when the line is empty or ends with a comma, and one
more otherwise. -/
theorem split_eq_reference_split (line : List Char) (hq : '"' ∉ line) :
    split line = reference_split line ∧
    (line.splitOn ',').length = line.count ',' + 1 ∧
    (split line).length =
      if line = [] ∨ line.getLast? = some ',' then line.count ','
      else line.count ',' + 1 := by
  have hs := scan_from_eq_splitOn line hq [] []
  have hid : List.modifyHead (fun p => ([] : List Char) ++ p) (line.splitOn ',')
      = line.splitOn ',' := by
    cases line.splitOn ',' <;> simp [List.modifyHead]
  rw [hid, List.nil_append] at hs
  have hs2 : line.splitOn ',' = (scan line).devide ++ [(scan line).temp] := hs.symm
  have hlen := scan_devide_length line hq
  have htemp := scan_temp_eq_nil_iff line hq
  refine ⟨?_, splitOn_comma_length line, ?_⟩
  · rw [split_eq_finish_scan]
    unfold reference_split finish
    simp only [hs2, List.getLast?_concat, List.dropLast_concat]
    by_cases ht : (scan line).temp = []
    · simp [ht]
    · simp [ht]
  · rw [split_eq_finish_scan]
    unfold finish
    by_cases ht : (scan line).temp = []
    · rw [if_pos (htemp.mp ht)]
      simp [ht, hlen]
    · rw [if_neg (fun h => ht (htemp.mpr h))]
      simp [ht, hlen]

/-- Witness for C15: interior and leading empty fields are kept, the trailing one is not;
`a,,b` gives three fields, `,` gives one empty field, the empty line gives none. -/
theorem split_eq_reference_split_witness :
    (split "a,,b".toList = reference_split "a,,b".toList ∧
      ("a,,b".toList.splitOn ',').length = "a,,b".toList.count ',' + 1 ∧
      (split "a,,b".toList).length =
        if "a,,b".toList = [] ∨ "a,,b".toList.getLast? = some ','
        then "a,,b".toList.count ',' else "a,,b".toList.count ',' + 1) ∧
    split "a,,b".toList = ["a".toList, "".toList, "b".toList] ∧
    split ",".toList = ["".toList] ∧
    split "".toList = [] ∧
    reference_split ",a,".toList = ["".toList, "a".toList] :=
  ⟨split_eq_reference_split "a,,b".toList (by decide), by decide, by decide, by decide,
    by decide⟩

end csv_reader

namespace oct_time_binsearch

/-! ## Binary search -/

/-- A read inside the array succeeds. -/
theorem read_at_of_lt (arr : List Int) (mid : Int) (h0 : 0 ≤ mid)
    (h1 : mid < arr.length) :
    ∃ h : mid.toNat < arr.length, read_at arr mid = some arr[mid.toNat] := by
  have h : mid.toNat < arr.length := by omega
  exact ⟨h, by simp [read_at, h0, List.getElem?_eq_getElem h]⟩

/-- The midpoint of a non-empty interval of non-negative indices lies inside it. -/
theorem mid_bounds (low high : Int) (h0 : 0 ≤ low) (h : low ≤ high) :
    low ≤ (low + high).tdiv 2 ∧ (low + high).tdiv 2 ≤ high := by
  rw [Int.tdiv_eq_ediv (by omega) (by omega)]
  constructor <;> omega

/-- Totality of the search loop, for any array, sorted or not: with `0 ≤ low`,
`high < len` and at least `high + 1 - low` iterations allowed, the loop ends with an
index, never in a fault. -/
theorem search_loop_total (arr : List Int) (val : Int) :
    ∀ (fuel : Nat) (low high : Int), 0 ≤ low → high < arr.length →
      high + 1 - low ≤ fuel → ∃ r, search_loop arr val fuel low high = Except.ok r := by
  intro fuel
  induction fuel with
  | zero =>
    intro low high _ _ hf
    have hle : ¬ low ≤ high := by omega
    unfold search_loop
    rw [if_neg hle]
    exact ⟨_, rfl⟩
  | succ fuel ih =>
    intro low high h0 hh hf
    unfold search_loop
    by_cases hle : low ≤ high
    · obtain ⟨hm1, hm2⟩ := mid_bounds low high h0 hle
      obtain ⟨_, hread⟩ := read_at_of_lt arr ((low + high).tdiv 2) (by omega) (by omega)
      simp only [hle, if_true, hread]
      by_cases hgt : arr[((low + high).tdiv 2).toNat] > val
      · simp only [hgt, if_true]
        exact ih low _ h0 (by omega) (by push_cast at hf ⊢; omega)
      · by_cases hlt : arr[((low + high).tdiv 2).toNat] < val
        · simp only [hgt, hlt, if_true, if_false]
          exact ih _ high (by omega) hh (by push_cast at hf ⊢; omega)
        · have heq : arr[((low + high).tdiv 2).toNat] = val := by omega
          rw [if_neg hgt, if_neg hlt, if_pos heq]
          exact ⟨_, rfl⟩
    · rw [if_neg hle]
      exact ⟨_, rfl⟩

/-- A sorted list is monotone in its indices. -/
theorem sorted_getElem_le (arr : List Int) (hs : arr.Sorted (· ≤ ·)) (i j : Nat)
    (hi : i < arr.length) (hj : j < arr.length) (hij : i ≤ j) : arr[i] ≤ arr[j] := by
  rcases Nat.lt_or_eq_of_le hij with h | h
  · exact (List.pairwise_iff_getElem.mp hs) i j hi hj h
  · subst h; exact le_refl _

/-- Soundness of the search loop on a sorted array.  If everything left of `low` is
smaller than the needle and everything right of `high` is larger, the value the loop
stores is either `m + 1` for an index `m` holding the needle, or `-(k + 1)` where `k`
splits the array into the elements smaller than the needle (before `k`) and those
larger (from `k` on). -/
theorem search_loop_sound (arr : List Int) (val : Int) (hs : arr.Sorted (· ≤ ·)) :
    ∀ (fuel : Nat) (low high r : Int), 0 ≤ low → low ≤ arr.length → high < arr.length →
      (∀ (i : Nat) (h : i < arr.length), (i : Int) < low → arr[i] < val) →
      (∀ (i : Nat) (h : i < arr.length), high < (i : Int) → val < arr[i]) →
      search_loop arr val fuel low high = Except.ok r →
      (∃ (m : Nat) (h : m < arr.length), r = (m : Int) + 1 ∧ arr[m] = val) ∨
      (∃ k : Nat, k ≤ arr.length ∧ r = -((k : Int) + 1) ∧
        (∀ (i : Nat) (h : i < arr.length), i < k → arr[i] < val) ∧
        (∀ (i : Nat) (h : i < arr.length), k ≤ i → val < arr[i])) := by
  have hexit : ∀ (low high : Int), 0 ≤ low → low ≤ arr.length → ¬ low ≤ high →
      (∀ (i : Nat) (h : i < arr.length), (i : Int) < low → arr[i] < val) →
      (∀ (i : Nat) (h : i < arr.length), high < (i : Int) → val < arr[i]) →
      ∃ k : Nat, k ≤ arr.length ∧ -1 * (low + 1) = -((k : Int) + 1) ∧
        (∀ (i : Nat) (h : i < arr.length), i < k → arr[i] < val) ∧
        (∀ (i : Nat) (h : i < arr.length), k ≤ i → val < arr[i]) := by
    intro low high h0 hl hle hL hR
    refine ⟨low.toNat, by omega, by omega, ?_, ?_⟩
    · intro i h hik; exact hL i h (by omega)
    · intro i h hik; exact hR i h (by omega)
  intro fuel
  induction fuel with
  | zero =>
    intro low high r h0 hl hh hL hR hres
    unfold search_loop at hres
    by_cases hle : low ≤ high
    · simp [hle] at hres
    · simp only [hle, if_false] at hres
      cases hres
      exact Or.inr (hexit low high h0 hl hle hL hR)
  | succ fuel ih =>
    intro low high r h0 hl hh hL hR hres
    unfold search_loop at hres
    by_cases hle : low ≤ high
    · obtain ⟨hm1, hm2⟩ := mid_bounds low high h0 hle
      obtain ⟨hmlt, hread⟩ := read_at_of_lt arr ((low + high).tdiv 2) (by omega) (by omega)
      simp only [hle, if_true, hread] at hres
      by_cases hgt : arr[((low + high).tdiv 2).toNat] > val
      · simp only [hgt, if_true] at hres
        refine ih low _ r h0 hl (by omega) hL ?_ hres
        intro i h hi
        have := sorted_getElem_le arr hs ((low + high).tdiv 2).toNat i hmlt h (by omega)
        omega
      · by_cases hlt : arr[((low + high).tdiv 2).toNat] < val
        · simp only [hgt, hlt, if_true, if_false] at hres
          refine ih _ high r (by omega) (by omega) hh ?_ hR hres
          intro i h hi
          have := sorted_getElem_le arr hs i ((low + high).tdiv 2).toNat h hmlt (by omega)
          omega
        · have heq : arr[((low + high).tdiv 2).toNat] = val := by omega
          rw [if_neg hgt, if_neg hlt, if_pos heq] at hres
          cases hres
          exact Or.inl ⟨((low + high).tdiv 2).toNat, hmlt, by omega, heq⟩
    · simp only [hle, if_false] at hres
      cases hres
      exact Or.inr (hexit low high h0 hl hle hL hR)


/-- The search for one needle always ends with an index. -/
theorem search_one_total (arr : List Int) (val : Int) :
    ∃ r, search_one arr val = Except.ok r :=
  search_loop_total arr val arr.length 0 ((arr.length : Int) - 1) (le_refl 0)
    (by omega) (by omega)

/-- The value stored for one needle on a sorted haystack: `m + 1` with `arr[m]` the
needle, or `-(k + 1)` with `k` the split point between smaller and larger elements. -/
theorem search_one_sound (arr : List Int) (val r : Int) (hs : arr.Sorted (· ≤ ·))
    (hres : search_one arr val = Except.ok r) :
    (∃ (m : Nat) (h : m < arr.length), r = (m : Int) + 1 ∧ arr[m] = val) ∨
    (∃ k : Nat, k ≤ arr.length ∧ r = -((k : Int) + 1) ∧
      (∀ (i : Nat) (h : i < arr.length), i < k → arr[i] < val) ∧
      (∀ (i : Nat) (h : i < arr.length), k ≤ i → val < arr[i])) :=
  search_loop_sound arr val hs arr.length 0 ((arr.length : Int) - 1) r (le_refl 0)
    (by omega) (by omega) (fun i _ hi => by omega) (fun i h hi => by omega) hres

/-- The loop over the needles fills one entry per needle, the entry of needle `i` being
the value the search loop stores for it. -/
theorem binsearch_loop_spec (arr : List Int) :
    ∀ vals : List Int, ∃ out, binsearch_loop arr vals = Except.ok out ∧
      out.length = vals.length ∧
      ∀ (i : Nat) (v r : Int), vals[i]? = some v → out[i]? = some r →
        search_one arr v = Except.ok r := by
  intro vals
  induction vals with
  | nil => exact ⟨[], rfl, rfl, fun i v r h => by simp at h⟩
  | cons val rest ih =>
    obtain ⟨r0, hr0⟩ := search_one_total arr val
    obtain ⟨rs, hrs, hlen, hk⟩ := ih
    refine ⟨r0 :: rs, by simp [binsearch_loop, hr0, hrs], by simp [hlen], ?_⟩
    intro i v r hv hr
    cases i with
    | zero =>
      simp at hv hr
      subst hv hr
      exact hr0
    | succ i =>
      simp at hv hr
      exact hk i v r hv hr

/-- C9. On a haystack of integers sorted in non-decreasing order and any array of
needles, `binsearch` returns one entry per needle; the entry `r` of a needle `v` is
positive exactly when `v` occurs in the haystack, and then `1 ≤ r ≤ len` and
`haystack[r - 1] = v`; when `v` does not occur, `r` is negative. -/
theorem binsearch_found_iff (vals arr : List Int) (hs : arr.Sorted (· ≤ ·)) :
    ∃ out, binsearch vals arr = Except.ok out ∧ out.length = vals.length ∧
      ∀ (i : Nat) (v r : Int), vals[i]? = some v → out[i]? = some r →
        (0 < r ↔ v ∈ arr) ∧
        (v ∈ arr → 1 ≤ r ∧ r ≤ arr.length ∧ arr[(r - 1).toNat]? = some v) ∧
        (v ∉ arr → r < 0) := by
  obtain ⟨out, hout, hlen, hk⟩ := binsearch_loop_spec arr vals
  refine ⟨out, hout, hlen, fun i v r hv hr => ?_⟩
  rcases search_one_sound arr v r hs (hk i v r hv hr) with
    ⟨m, hm, hrm, hval⟩ | ⟨k, _, hrk, hL, hR⟩
  · have hmem : v ∈ arr := List.mem_iff_getElem.mpr ⟨m, hm, hval⟩
    have hidx : (r - 1).toNat = m := by omega
    refine ⟨⟨fun _ => hmem, fun _ => by omega⟩, fun _ => ⟨by omega, by omega, ?_⟩,
      fun h => absurd hmem h⟩
    rw [hidx, List.getElem?_eq_getElem hm, hval]
  · have hnot : v ∉ arr := by
      intro hmem
      obtain ⟨n, hn, hnv⟩ := List.mem_iff_getElem.mp hmem
      rcases Nat.lt_or_ge n k with h | h
      · have := hL n hn h; omega
      · have := hR n hn h; omega
    exact ⟨⟨fun h => by omega, fun h => absurd h hnot⟩, fun h => absurd h hnot,
      fun _ => by omega⟩

/-- Witness for C9: the sorted haystack `1, 3, 3, 5, 7, 9` and the needles `0 .. 4`. -/
theorem binsearch_found_iff_witness :
    [1, 3, 3, 5, 7, 9].Sorted (· ≤ · : Int → Int → Prop) ∧
    binsearch [0, 1, 2, 3, 4] [1, 3, 3, 5, 7, 9] = Except.ok [-1, 1, -2, 3, -4] ∧
    ∃ out, binsearch [0, 1, 2, 3, 4] [1, 3, 3, 5, 7, 9] = Except.ok out ∧
      out.length = 5 ∧
      ∀ (i : Nat) (v r : Int), [0, 1, 2, 3, 4][i]? = some v → out[i]? = some r →
        (0 < r ↔ v ∈ [1, 3, 3, 5, 7, 9]) ∧
        (v ∈ [1, 3, 3, 5, 7, 9] → 1 ≤ r ∧ r ≤ 6 ∧
          [1, 3, 3, 5, 7, 9][(r - 1).toNat]? = some v) ∧
        (v ∉ [1, 3, 3, 5, 7, 9] → r < 0) :=
  ⟨by decide, rfl, binsearch_found_iff [0, 1, 2, 3, 4] [1, 3, 3, 5, 7, 9] (by decide)⟩

/-! ## Type check, insertion point and totality -/

/-- C16, as the code behaves.  With needles of type double and a haystack of type int32
the call raises no type error: it searches and returns the index 1.  The test compares
the needles' type with itself (`arr_type` is read from `vals`), so for no arguments at
all does the call end in the error `Inputs must be the same type`. -/
theorem type_check_never_fires :
    __oct_time_binsearch__ exact_array_value
        [⟨builtin_type_t.btyp_double, [1]⟩, ⟨builtin_type_t.btyp_int32, [1]⟩]
      = Except.ok [1] ∧
    (∀ (array_value : builtin_type_t → octave_value → Option (List Int))
        (args : List octave_value),
      __oct_time_binsearch__ array_value args
        ≠ Except.error CallError.inputs_must_be_same_type) := by
  refine ⟨rfl, ?_⟩
  intro array_value args h
  have hcase : ∀ (t : builtin_type_t) (vals arr : octave_value),
      search_case array_value t vals arr
        ≠ Except.error CallError.inputs_must_be_same_type := by
    intro t vals arr hs
    unfold search_case at hs
    split at hs
    · split at hs <;> cases hs
    · cases hs
  unfold __oct_time_binsearch__ at h
  simp only at h
  split at h
  · cases h
  · split at h
    · split at h
      · rename_i hne; exact hne rfl
      · split at h <;> first | exact hcase _ _ _ h | cases h
    · cases h

/-- The number of elements smaller than the needle is the split point between the
smaller and the larger elements. -/
theorem countP_lt_eq_split (val : Int) :
    ∀ (arr : List Int) (k : Nat), k ≤ arr.length →
      (∀ (i : Nat) (h : i < arr.length), i < k → arr[i] < val) →
      (∀ (i : Nat) (h : i < arr.length), k ≤ i → val < arr[i]) →
      arr.countP (fun a => decide (a < val)) = k := by
  intro arr
  induction arr with
  | nil => intro k hk _ _; simp at hk; simp [hk]
  | cons a rest ih =>
    intro k hk hL hR
    cases k with
    | zero =>
      have ha : ¬ a < val := by
        have := hR 0 (by simp) (le_refl 0)
        simp at this
        omega
      have := ih 0 (by omega) (fun i h hi => absurd hi (by omega))
        (fun i h _ => by
          have := hR (i + 1) (by simp; omega) (by omega)
          simpa using this)
      simp [List.countP_cons, ha, this]
    | succ k =>
      have ha : a < val := by
        have := hL 0 (by simp) (by omega)
        simpa using this
      have := ih k (by simp at hk; omega)
        (fun i h hi => by
          have := hL (i + 1) (by simp; omega) (by omega)
          simpa using this)
        (fun i h hi => by
          have := hR (i + 1) (by simp; omega) (by omega)
          simpa using this)
      simp [List.countP_cons, ha, this]

/-- On an empty haystack the search stores `-1` for every needle. -/
theorem binsearch_loop_nil (vals : List Int) :
    binsearch_loop [] vals = Except.ok (List.replicate vals.length (-1)) := by
  induction vals with
  | nil => rfl
  | cons v rest ih =>
    have h1 : search_one [] v = Except.ok (-1) := by
      simp [search_one, search_loop]
    simp [binsearch_loop, h1, ih, List.replicate_succ]

/-- C17. Insertion point: on a haystack of integers sorted in non-decreasing order, the
entry of every needle `v` that does not occur in it is exactly `-(k + 1)`, with `k` the
number of haystack elements strictly smaller than `v`; on an empty haystack every entry
is `-1`. -/
theorem binsearch_insertion_point (vals arr : List Int) (hs : arr.Sorted (· ≤ ·)) :
    (∃ out, binsearch vals arr = Except.ok out ∧ out.length = vals.length ∧
      ∀ (i : Nat) (v r : Int), vals[i]? = some v → out[i]? = some r → v ∉ arr →
        r = -((arr.countP (fun a => decide (a < v)) : Int) + 1)) ∧
    binsearch vals [] = Except.ok (List.replicate vals.length (-1)) := by
  refine ⟨?_, binsearch_loop_nil vals⟩
  obtain ⟨out, hout, hlen, hk⟩ := binsearch_loop_spec arr vals
  refine ⟨out, hout, hlen, fun i v r hv hr hnot => ?_⟩
  rcases search_one_sound arr v r hs (hk i v r hv hr) with
    ⟨m, hm, _, hval⟩ | ⟨k, hkl, hrk, hL, hR⟩
  · exact absurd (List.mem_iff_getElem.mpr ⟨m, hm, hval⟩) hnot
  · rw [countP_lt_eq_split v arr k hkl hL hR]
    exact hrk

/-- Witness for C17: the haystack `1, 3, 3, 5, 7, 9`; the needles `0`, `4` and `10` have
0, 3 and 6 smaller elements. -/
theorem binsearch_insertion_point_witness :
    [1, 3, 3, 5, 7, 9].Sorted (· ≤ · : Int → Int → Prop) ∧
    binsearch [0, 4, 10] [1, 3, 3, 5, 7, 9] = Except.ok [-1, -4, -7] ∧
    ((∃ out, binsearch [0, 4, 10] [1, 3, 3, 5, 7, 9] = Except.ok out ∧ out.length = 3 ∧
      ∀ (i : Nat) (v r : Int), [0, 4, 10][i]? = some v → out[i]? = some r →
        v ∉ [1, 3, 3, 5, 7, 9] →
        r = -((([1, 3, 3, 5, 7, 9] : List Int).countP (fun a => decide (a < v)) : Int)
          + 1)) ∧
     binsearch [0, 4, 10] [] = Except.ok (List.replicate 3 (-1))) :=
  ⟨by decide, rfl, binsearch_insertion_point [0, 4, 10] [1, 3, 3, 5, 7, 9] (by decide)⟩

/-- C18. Totality of `binsearch` on any haystack of integers, sorted or not: while the
loop runs (`0 ≤ low ≤ high < len`) the index `mid` it reads lies in `0 .. len - 1`, the
read succeeds, and both possible next intervals are strictly shorter; so, from any state
with `0 ≤ low` and `high < len`, the loop ends within `high + 1 - low` iterations with an
index and without a fault, and `binsearch` returns one entry per needle. -/
theorem binsearch_total (vals arr : List Int) :
    (∀ low high : Int, 0 ≤ low → low ≤ high → high < arr.length →
      0 ≤ (low + high).tdiv 2 ∧ (low + high).tdiv 2 < arr.length ∧
      (∃ a, read_at arr ((low + high).tdiv 2) = some a) ∧
      ((low + high).tdiv 2 - 1) - low < high - low ∧
      high - ((low + high).tdiv 2 + 1) < high - low) ∧
    (∀ (val : Int) (fuel : Nat) (low high : Int), 0 ≤ low → high < arr.length →
      high + 1 - low ≤ fuel → ∃ r, search_loop arr val fuel low high = Except.ok r) ∧
    (∀ val : Int, ∃ r, search_one arr val = Except.ok r) ∧
    (∃ out, binsearch vals arr = Except.ok out ∧ out.length = vals.length ∧
      ∀ i, i < vals.length → ∃ r, out[i]? = some r) := by
  refine ⟨?_, fun val => search_loop_total arr val, search_one_total arr, ?_⟩
  · intro low high h0 hle hh
    obtain ⟨h1, h2⟩ := mid_bounds low high h0 hle
    obtain ⟨hlt, hread⟩ := read_at_of_lt arr ((low + high).tdiv 2) (by omega) (by omega)
    exact ⟨by omega, by omega, ⟨_, hread⟩, by omega, by omega⟩
  · obtain ⟨out, hout, hlen, _⟩ := binsearch_loop_spec arr vals
    refine ⟨out, hout, hlen, fun i hi => ?_⟩
    have hi2 : i < out.length := by omega
    exact ⟨out[i], List.getElem?_eq_getElem hi2⟩

end oct_time_binsearch
